import Mathlib

/-!
Verification of the grid-partitioning, validation and placement logic of the
LEGION/Stencil benchmark (`src/LEGION/Stencil/stencil.cc`).

The C++ code is shallowly embedded: machine integers (`int`, `coord_t`) are
modelled as `Int`; the C operators `/` and `%` coincide with Lean's Euclidean
`/` and `%` on the nonnegative operands at which every embedded division is
used, and every theorem below restricts to those operands.
-/

set_option linter.unusedVariables false

namespace Stencil

/-- A closed integer rectangle `[lox, hix] × [loy, hiy]`, the embedding of
Legion's `Rect<2>` (`lo`/`hi` corner points, both inclusive). -/
structure Rect2 where
  lox : Int
  loy : Int
  hix : Int
  hiy : Int
deriving DecidableEq, Repr

/-- Point membership in a `Rect2` (both bounds inclusive, as in Legion). -/
def Rect2.containsPt (r : Rect2) (x y : Int) : Prop :=
  r.lox ≤ x ∧ x ≤ r.hix ∧ r.loy ≤ y ∧ y ≤ r.hiy

instance (r : Rect2) (x y : Int) : Decidable (r.containsPt x y) := by
  unfold Rect2.containsPt; infer_instance

/-- The shrink loop shared by `createHaloPartition` and
`createBoundaryPartition` (stencil.cc:619-623 and 691-695): move each `lo`
coordinate inward by `RADIUS` unless it is `0`, and each `hi` coordinate
inward by `RADIUS` unless it is `n - 1`. -/
def shrinkBox (n R : Int) (b : Rect2) : Rect2 :=
  { lox := if b.lox ≠ 0 then b.lox + R else b.lox
    loy := if b.loy ≠ 0 then b.loy + R else b.loy
    hix := if b.hix ≠ n - 1 then b.hix - R else b.hix
    hiy := if b.hiy ≠ n - 1 then b.hiy - R else b.hiy }

/-- The halo-extended tile box built in `top_level_task` (stencil.cc:439-445):
per axis `[max(t*w - R, 0), min((t+1)*w + R, n) - 1]`. -/
def haloBox (n tileSizeX tileSizeY R tx ty : Int) : Rect2 :=
  { lox := max (tx * tileSizeX - R) 0
    loy := max (ty * tileSizeY - R) 0
    hix := min ((tx + 1) * tileSizeX + R) n - 1
    hiy := min ((ty + 1) * tileSizeY + R) n - 1 }

/-- A tile's private region: the `PRIVATE` color of `createHaloPartition`
(stencil.cc:616-623, 663), i.e. the halo box shrunk by `RADIUS` away from
every side that does not lie on the global grid edge.  The tile sizes are
`n / Num_procsx` and `n / Num_procsy` (stencil.cc:428-429). -/
def privateBox (n Px Py R tx ty : Int) : Rect2 :=
  shrinkBox n R (haloBox n (n / Px) (n / Py) R tx ty)

/-! ## Balanced work-block split (`createBalancedPartition`, stencil.cc:789-828) -/

/-- Width of the block of a given color: the first `remainder` colors get
`offY + 1` rows, the rest `offY` (stencil.cc:812). -/
def balancedWidth (offY remainder : Int) (color : Int) : Int :=
  if color < remainder then offY + 1 else offY

/-- The running `startY` of the loop in `createBalancedPartition`
(stencil.cc:810-822): starts at `rect.lo[1]` and advances by the width of
each block. -/
def balancedStartY (offY remainder startY0 : Int) : Nat → Int
  | 0 => startY0
  | c + 1 => balancedStartY offY remainder startY0 c +
      balancedWidth offY remainder c

/-- The block assigned to `color` by `createBalancedPartition`
(stencil.cc:789-828): full x-extent of `rect`, rows
`[startY, startY + widthY - 1]` where `offY = sizeY / numThreads` and
`remainder = sizeY % numThreads`. -/
def createBalancedPartition (rect : Rect2) (numThreads : Nat) (color : Nat) :
    Rect2 :=
  let sizeY := rect.hiy - rect.loy + 1
  let offY := sizeY / (numThreads : Int)
  let remainder := sizeY % (numThreads : Int)
  { lox := rect.lox
    loy := balancedStartY offY remainder rect.loy color
    hix := rect.hix
    hiy := balancedStartY offY remainder rect.loy color +
        balancedWidth offY remainder color - 1 }

/-- The two in-loop assertions of `createBalancedPartition`
(stencil.cc:815-816): before emitting each block,
`assert(startY < rect.hi[1])` and
`assert(startY + widthY - 1 <= rect.hi[1])`. -/
def balancedAssertsOk (rect : Rect2) (numThreads : Nat) : Prop :=
  let sizeY := rect.hiy - rect.loy + 1
  let offY := sizeY / (numThreads : Int)
  let remainder := sizeY % (numThreads : Int)
  ∀ c, c < numThreads →
    balancedStartY offY remainder rect.loy c < rect.hiy ∧
    balancedStartY offY remainder rect.loy c +
      balancedWidth offY remainder c - 1 ≤ rect.hiy

instance (rect : Rect2) (numThreads : Nat) :
    Decidable (balancedAssertsOk rect numThreads) := by
  unfold balancedAssertsOk; infer_instance

/-- Closed form of the running start coordinate. -/
lemma balancedStartY_closed (offY rem s0 : Int) (hrem : 0 ≤ rem) (c : Nat) :
    balancedStartY offY rem s0 c = s0 + c * offY + min rem (c : Int) := by
  induction c with
  | zero =>
      simp only [balancedStartY, Nat.cast_zero, zero_mul, add_zero]
      omega
  | succ k ih =>
      simp only [balancedStartY, balancedWidth, ih]
      push_cast
      rw [add_one_mul]
      split_ifs with h
      · have hmin1 : min rem (k : Int) = (k : Int) := by omega
        have hmin2 : min rem ((k : Int) + 1) = (k : Int) + 1 := by omega
        rw [hmin1, hmin2]; ring
      · have hmin1 : min rem (k : Int) = rem := by omega
        have hmin2 : min rem ((k : Int) + 1) = rem := by omega
        rw [hmin1, hmin2]; ring

/-- The running start coordinate accumulates exactly the block widths. -/
lemma balancedStartY_eq_sum (offY rem s0 : Int) (k : Nat) :
    balancedStartY offY rem s0 k =
      s0 + ∑ c ∈ Finset.range k, balancedWidth offY rem (c : Int) := by
  induction k with
  | zero => simp [balancedStartY]
  | succ m ih =>
      rw [Finset.sum_range_succ]
      simp only [balancedStartY, ih]
      ring

/-- The property claimed for the balanced split of `rect` into `numThreads`
row blocks: per-block widths follow the even-remainder-first rule, blocks
keep the full x-extent, are laid out contiguously in increasing
row-coordinate order, their widths sum to the row count and differ pairwise
by at most 1. -/
def balancedSplitSpec (rect : Rect2) (numThreads : Nat) : Prop :=
  let size := rect.hiy - rect.loy + 1
  let base := size / (numThreads : Int)
  let rem := size % (numThreads : Int)
  (∀ c, c < numThreads →
      (createBalancedPartition rect numThreads c).lox = rect.lox ∧
      (createBalancedPartition rect numThreads c).hix = rect.hix ∧
      (createBalancedPartition rect numThreads c).hiy -
          (createBalancedPartition rect numThreads c).loy + 1 =
        (if (c : Int) < rem then base + 1 else base)) ∧
  (createBalancedPartition rect numThreads 0).loy = rect.loy ∧
  (∀ c, c + 1 < numThreads →
      (createBalancedPartition rect numThreads (c + 1)).loy =
        (createBalancedPartition rect numThreads c).hiy + 1) ∧
  (∑ c ∈ Finset.range numThreads,
      ((createBalancedPartition rect numThreads c).hiy -
        (createBalancedPartition rect numThreads c).loy + 1)) = size ∧
  (∀ c₁, c₁ < numThreads → ∀ c₂, c₂ < numThreads →
      |((createBalancedPartition rect numThreads c₁).hiy -
          (createBalancedPartition rect numThreads c₁).loy + 1) -
        ((createBalancedPartition rect numThreads c₂).hiy -
          (createBalancedPartition rect numThreads c₂).loy + 1)| ≤ 1)

/-- Width of each produced block is exactly `balancedWidth`. -/
lemma createBalancedPartition_width (rect : Rect2) (numThreads : Nat)
    (c : Nat) :
    (createBalancedPartition rect numThreads c).hiy -
        (createBalancedPartition rect numThreads c).loy + 1 =
      balancedWidth ((rect.hiy - rect.loy + 1) / (numThreads : Int))
        ((rect.hiy - rect.loy + 1) % (numThreads : Int)) (c : Int) := by
  simp only [createBalancedPartition]
  ring

/-- C2: Balanced work-block split: for every row range of `size ≥ 1` rows and
`workers ≥ 1` threads with `workers ≤ size`, `createBalancedPartition`
produces blocks of width `base + 1` for the first `size % workers` colors and
width `base = size / workers` for the rest, contiguously in increasing
row-coordinate order, so the widths sum to `size` and differ pairwise by at
most 1. -/
theorem balanced_split_correct (rect : Rect2) (numThreads : Nat)
    (hthreads : 1 ≤ numThreads)
    (hsize : 1 ≤ rect.hiy - rect.loy + 1)
    (hworkers : (numThreads : Int) ≤ rect.hiy - rect.loy + 1) :
    balancedSplitSpec rect numThreads := by
  set size : Int := rect.hiy - rect.loy + 1 with hsz
  have hK0 : (0 : Int) < (numThreads : Int) := by exact_mod_cast hthreads
  have hKne : ((numThreads : Int)) ≠ 0 := ne_of_gt hK0
  have hrem0 : 0 ≤ size % (numThreads : Int) := Int.emod_nonneg size hKne
  have hremK : size % (numThreads : Int) < (numThreads : Int) :=
    Int.emod_lt_of_pos size hK0
  refine ⟨?_, ?_, ?_, ?_, ?_⟩
  · intro c hc
    refine ⟨rfl, rfl, ?_⟩
    rw [createBalancedPartition_width]
    rfl
  · simp [createBalancedPartition, balancedStartY]
  · intro c hc
    simp only [createBalancedPartition, balancedStartY]
    ring
  · have hsum : ∀ k : Nat,
        (∑ c ∈ Finset.range k,
          balancedWidth (size / (numThreads : Int))
            (size % (numThreads : Int)) (c : Int)) =
        balancedStartY (size / (numThreads : Int))
          (size % (numThreads : Int)) 0 k := by
      intro k
      rw [balancedStartY_eq_sum]
      ring
    have := hsum numThreads
    rw [balancedStartY_closed _ _ _ hrem0] at this
    have hmin : min (size % (numThreads : Int)) ((numThreads : Nat) : Int) =
        size % (numThreads : Int) := by omega
    rw [hmin] at this
    have hdm : (numThreads : Int) * (size / (numThreads : Int)) +
        size % (numThreads : Int) = size := Int.ediv_add_emod size _
    calc (∑ c ∈ Finset.range numThreads,
            ((createBalancedPartition rect numThreads c).hiy -
              (createBalancedPartition rect numThreads c).loy + 1))
        = ∑ c ∈ Finset.range numThreads,
            balancedWidth (size / (numThreads : Int))
              (size % (numThreads : Int)) (c : Int) := by
          refine Finset.sum_congr rfl ?_
          intro c hc
          rw [createBalancedPartition_width]
      _ = size := by rw [this]; linarith [hdm]
  · intro c₁ hc₁ c₂ hc₂
    rw [createBalancedPartition_width, createBalancedPartition_width]
    simp only [balancedWidth]
    split_ifs <;> simp

/-- Witness for C2 at `size = 5`, `workers = 2`. -/
theorem balanced_split_correct_witness :
    (1 ≤ 2 ∧ (1 : Int) ≤ (4 : Int) - 0 + 1 ∧ ((2 : Nat) : Int) ≤ (4 : Int) - 0 + 1) ∧
    balancedSplitSpec ⟨0, 0, 7, 4⟩ 2 :=
  ⟨⟨by decide, by decide, by decide⟩,
    balanced_split_correct ⟨0, 0, 7, 4⟩ 2 (by decide) (by decide) (by decide)⟩

/-- C3: the claim states that the in-loop assertions of
`createBalancedPartition` never fail when `workers ≤ size`.  The code
contradicts this: `assert(startY < rect.hi[1])` (stencil.cc:815) uses a
strict `<`, which fires whenever the block that starts at `rect.hi[1]` is
emitted, i.e. whenever the last block has width 1 (`size < 2 * workers`) —
for example a 1-row rectangle split among 1 thread, where the produced block
`[0,0]` is perfectly well formed.  The intended invariant, consistent with
the adjacent `assert(startY + widthY - 1 <= rect.hi[1])`, is
`startY ≤ rect.hi[1]`, which fails exactly when `workers > size`.  This
theorem evaluates the embedded assertions at the failing input: `workers = 1
≤ size = 1`, yet the first assertion fails. -/
theorem balanced_asserts_fire_on_valid_input :
    ((1 : Nat) : Int) ≤ (0 : Int) - 0 + 1 ∧
    ¬ balancedAssertsOk ⟨0, 0, 0, 0⟩ 1 := by
  constructor
  · decide
  · decide

/-! ## Boundary sector decomposition (`createBoundaryPartition`, stencil.cc:671-787) -/

/-- The nine colors of the boundary partition (enum `Boundary`,
stencil.cc:272-282). -/
inductive Boundary where
  | LEFT
  | LEFT_UP
  | UP
  | UP_RIGHT
  | RIGHT
  | RIGHT_DOWN
  | DOWN
  | DOWN_LEFT
  | INTERIOR
deriving DecidableEq, Repr, Fintype

/-- The existence condition under which `createBoundaryPartition` colors each
sector (`hasBoundary[...] = true`), read off the nesting of the `if`s at
stencil.cc:697-781; `interiorBox` is the private box shrunk by `RADIUS` away
from the global edges (stencil.cc:690-695). -/
def hasBoundarySector (n R : Int) (b : Rect2) : Boundary → Prop :=
  fun s =>
    let I := shrinkBox n R b
    match s with
    | .LEFT => 0 < I.lox
    | .LEFT_UP => 0 < I.lox ∧ 0 < I.loy
    | .UP => 0 < I.loy
    | .UP_RIGHT => 0 < I.loy ∧ I.hix < n - 1
    | .RIGHT => I.hix < n - 1
    | .RIGHT_DOWN => I.hix < n - 1 ∧ I.hiy < n - 1
    | .DOWN => I.hiy < n - 1
    | .DOWN_LEFT => I.hiy < n - 1 ∧ 0 < I.lox
    | .INTERIOR => True

instance (n R : Int) (b : Rect2) (s : Boundary) :
    Decidable (hasBoundarySector n R b s) := by
  cases s <;> simp only [hasBoundarySector] <;> infer_instance

/-- The rectangle `createBoundaryPartition` assigns to each color, read off
the `lu`/`rd` corner pairs at stencil.cc:697-781. -/
def sectorRect (n R : Int) (b : Rect2) : Boundary → Rect2 :=
  fun s =>
    let I := shrinkBox n R b
    match s with
    | .LEFT => ⟨b.lox, I.loy, I.lox - 1, I.hiy⟩
    | .LEFT_UP => ⟨b.lox, b.loy, I.lox - 1, I.loy - 1⟩
    | .UP => ⟨I.lox, b.loy, I.hix, I.loy - 1⟩
    | .UP_RIGHT => ⟨I.hix + 1, b.loy, b.hix, I.loy - 1⟩
    | .RIGHT => ⟨I.hix + 1, I.loy, b.hix, I.hiy⟩
    | .RIGHT_DOWN => ⟨I.hix + 1, I.hiy + 1, b.hix, b.hiy⟩
    | .DOWN => ⟨I.lox, I.hiy + 1, I.hix, b.hiy⟩
    | .DOWN_LEFT => ⟨b.lox, I.hiy + 1, I.lox - 1, b.hiy⟩
    | .INTERIOR => I

/-- A point lies in a sector of the decomposition of private box `b` iff the
sector exists and its rectangle contains the point. -/
def inSector (n R : Int) (b : Rect2) (s : Boundary) (x y : Int) : Prop :=
  hasBoundarySector n R b s ∧ (sectorRect n R b s).containsPt x y

instance (n R : Int) (b : Rect2) (s : Boundary) (x y : Int) :
    Decidable (inSector n R b s x y) := by
  unfold inSector; infer_instance

/-- The three column (resp. row) bands into which the interior box splits an
axis of the private box. -/
inductive Band where
  | low
  | mid
  | high
deriving DecidableEq, Repr, Fintype

/-- Column-band membership: `low` is `[b.lox, I.lox - 1]`, `mid` is
`[I.lox, I.hix]`, `high` is `[I.hix + 1, b.hix]`. -/
def inBandX (n R : Int) (b : Rect2) : Band → Int → Prop
  | .low, x => b.lox ≤ x ∧ x ≤ (shrinkBox n R b).lox - 1
  | .mid, x => (shrinkBox n R b).lox ≤ x ∧ x ≤ (shrinkBox n R b).hix
  | .high, x => (shrinkBox n R b).hix + 1 ≤ x ∧ x ≤ b.hix

/-- Row-band membership, analogous to `inBandX`. -/
def inBandY (n R : Int) (b : Rect2) : Band → Int → Prop
  | .low, y => b.loy ≤ y ∧ y ≤ (shrinkBox n R b).loy - 1
  | .mid, y => (shrinkBox n R b).loy ≤ y ∧ y ≤ (shrinkBox n R b).hiy
  | .high, y => (shrinkBox n R b).hiy + 1 ≤ y ∧ y ≤ b.hiy

/-- The (column band, row band) pair of each sector. -/
def bandOf : Boundary → Band × Band
  | .LEFT => (.low, .mid)
  | .LEFT_UP => (.low, .low)
  | .UP => (.mid, .low)
  | .UP_RIGHT => (.high, .low)
  | .RIGHT => (.high, .mid)
  | .RIGHT_DOWN => (.high, .high)
  | .DOWN => (.mid, .high)
  | .DOWN_LEFT => (.low, .high)
  | .INTERIOR => (.mid, .mid)

/-- The sector with a given (column band, row band) pair. -/
def sectorOfBands : Band × Band → Boundary
  | (.low, .mid) => .LEFT
  | (.low, .low) => .LEFT_UP
  | (.mid, .low) => .UP
  | (.high, .low) => .UP_RIGHT
  | (.high, .mid) => .RIGHT
  | (.high, .high) => .RIGHT_DOWN
  | (.mid, .high) => .DOWN
  | (.low, .high) => .DOWN_LEFT
  | (.mid, .mid) => .INTERIOR

lemma bandOf_sectorOfBands : ∀ p, bandOf (sectorOfBands p) = p := by decide

lemma bandOf_injective : ∀ s₁ s₂ : Boundary, bandOf s₁ = bandOf s₂ → s₁ = s₂ := by
  decide

/-- Sector membership is exactly membership in the sector's column and row
bands (for a private box inside the grid and `R ≥ 1`). -/
lemma inSector_iff_bands (n R : Int) (b : Rect2)
    (hR : 1 ≤ R) (hlox : 0 ≤ b.lox) (hloy : 0 ≤ b.loy)
    (hhix : b.hix ≤ n - 1) (hhiy : b.hiy ≤ n - 1) (s : Boundary) (x y : Int) :
    inSector n R b s x y ↔
      inBandX n R b (bandOf s).1 x ∧ inBandY n R b (bandOf s).2 y := by
  cases s <;>
    simp only [inSector, hasBoundarySector, sectorRect, bandOf, inBandX,
      inBandY, Rect2.containsPt, shrinkBox, true_and] <;>
    split_ifs <;> omega

/-- Distinct column bands are disjoint, provided the interior box is not
inverted by more than one position on the x-axis. -/
lemma inBandX_disjoint (n R : Int) (b : Rect2)
    (hnix : (shrinkBox n R b).lox ≤ (shrinkBox n R b).hix + 1) :
    ∀ t₁ t₂ : Band, t₁ ≠ t₂ → ∀ x, inBandX n R b t₁ x →
      inBandX n R b t₂ x → False := by
  intro t₁ t₂ hne x h₁ h₂
  cases t₁ <;> cases t₂ <;>
    simp only [inBandX] at h₁ h₂ <;>
    first
      | exact hne rfl
      | omega

/-- Distinct row bands are disjoint, provided the interior box is not
inverted by more than one position on the y-axis. -/
lemma inBandY_disjoint (n R : Int) (b : Rect2)
    (hniy : (shrinkBox n R b).loy ≤ (shrinkBox n R b).hiy + 1) :
    ∀ t₁ t₂ : Band, t₁ ≠ t₂ → ∀ y, inBandY n R b t₁ y →
      inBandY n R b t₂ y → False := by
  intro t₁ t₂ hne y h₁ h₂
  cases t₁ <;> cases t₂ <;>
    simp only [inBandY] at h₁ h₂ <;>
    first
      | exact hne rfl
      | omega

/-- Every x-coordinate of the private box lies in some column band. -/
lemma inBandX_cover (n R : Int) (b : Rect2) (x : Int)
    (h : b.lox ≤ x ∧ x ≤ b.hix) : ∃ t, inBandX n R b t x := by
  by_cases h₁ : x < (shrinkBox n R b).lox
  · exact ⟨.low, by simp only [inBandX]; omega⟩
  · by_cases h₂ : x ≤ (shrinkBox n R b).hix
    · exact ⟨.mid, by simp only [inBandX]; omega⟩
    · exact ⟨.high, by simp only [inBandX]; omega⟩

/-- Every y-coordinate of the private box lies in some row band. -/
lemma inBandY_cover (n R : Int) (b : Rect2) (y : Int)
    (h : b.loy ≤ y ∧ y ≤ b.hiy) : ∃ t, inBandY n R b t y := by
  by_cases h₁ : y < (shrinkBox n R b).loy
  · exact ⟨.low, by simp only [inBandY]; omega⟩
  · by_cases h₂ : y ≤ (shrinkBox n R b).hiy
    · exact ⟨.mid, by simp only [inBandY]; omega⟩
    · exact ⟨.high, by simp only [inBandY]; omega⟩

/-- Column bands stay within the x-extent of the private box. -/
lemma inBandX_sub (n R : Int) (b : Rect2) (hR : 1 ≤ R)
    (hnix : (shrinkBox n R b).lox ≤ (shrinkBox n R b).hix + 1)
    (t : Band) (x : Int) (h : inBandX n R b t x) :
    b.lox ≤ x ∧ x ≤ b.hix := by
  cases t <;> simp only [inBandX, shrinkBox] at h hnix <;>
    split_ifs at h hnix <;> omega

/-- Row bands stay within the y-extent of the private box. -/
lemma inBandY_sub (n R : Int) (b : Rect2) (hR : 1 ≤ R)
    (hniy : (shrinkBox n R b).loy ≤ (shrinkBox n R b).hiy + 1)
    (t : Band) (y : Int) (h : inBandY n R b t y) :
    b.loy ≤ y ∧ y ≤ b.hiy := by
  cases t <;> simp only [inBandY, shrinkBox] at h hniy <;>
    split_ifs at h hniy <;> omega

/-- The property claimed for the boundary decomposition of a private box `b`:
pairwise-disjoint sectors whose union is exactly `b`, edge sectors existing
iff their edge condition holds, and corner sectors existing iff both
adjacent edge sectors exist. -/
def sectorTilingOfBox (n R : Int) (b : Rect2) : Prop :=
  (∀ s₁ s₂ : Boundary, ∀ x y : Int,
      inSector n R b s₁ x y → inSector n R b s₂ x y → s₁ = s₂) ∧
  (∀ x y : Int, b.containsPt x y ↔ ∃ s, inSector n R b s x y) ∧
  (hasBoundarySector n R b .LEFT ↔ b.lox < (shrinkBox n R b).lox) ∧
  (hasBoundarySector n R b .UP ↔ b.loy < (shrinkBox n R b).loy) ∧
  (hasBoundarySector n R b .RIGHT ↔ (shrinkBox n R b).hix < b.hix) ∧
  (hasBoundarySector n R b .DOWN ↔ (shrinkBox n R b).hiy < b.hiy) ∧
  (hasBoundarySector n R b .LEFT_UP ↔
    hasBoundarySector n R b .LEFT ∧ hasBoundarySector n R b .UP) ∧
  (hasBoundarySector n R b .UP_RIGHT ↔
    hasBoundarySector n R b .UP ∧ hasBoundarySector n R b .RIGHT) ∧
  (hasBoundarySector n R b .RIGHT_DOWN ↔
    hasBoundarySector n R b .RIGHT ∧ hasBoundarySector n R b .DOWN) ∧
  (hasBoundarySector n R b .DOWN_LEFT ↔
    hasBoundarySector n R b .DOWN ∧ hasBoundarySector n R b .LEFT)

/-- The sector decomposition tiles any private box inside the grid whose
interior box is not inverted by more than one position on either axis. -/
lemma sectorTilingOfBox_holds (n R : Int) (b : Rect2) (hR : 1 ≤ R)
    (hlox : 0 ≤ b.lox) (hloy : 0 ≤ b.loy)
    (hhix : b.hix ≤ n - 1) (hhiy : b.hiy ≤ n - 1)
    (hnix : (shrinkBox n R b).lox ≤ (shrinkBox n R b).hix + 1)
    (hniy : (shrinkBox n R b).loy ≤ (shrinkBox n R b).hiy + 1) :
    sectorTilingOfBox n R b := by
  refine ⟨?_, ?_, ?_, ?_, ?_, ?_, ?_, ?_, ?_, ?_⟩
  · intro s₁ s₂ x y h₁ h₂
    rw [inSector_iff_bands n R b hR hlox hloy hhix hhiy] at h₁ h₂
    have hx : (bandOf s₁).1 = (bandOf s₂).1 := by
      by_contra hne
      exact inBandX_disjoint n R b hnix _ _ hne x h₁.1 h₂.1
    have hy : (bandOf s₁).2 = (bandOf s₂).2 := by
      by_contra hne
      exact inBandY_disjoint n R b hniy _ _ hne y h₁.2 h₂.2
    exact bandOf_injective s₁ s₂ (Prod.ext hx hy)
  · intro x y
    constructor
    · intro h
      obtain ⟨hx1, hx2, hy1, hy2⟩ := h
      obtain ⟨tX, htX⟩ := inBandX_cover n R b x ⟨hx1, hx2⟩
      obtain ⟨tY, htY⟩ := inBandY_cover n R b y ⟨hy1, hy2⟩
      refine ⟨sectorOfBands (tX, tY), ?_⟩
      rw [inSector_iff_bands n R b hR hlox hloy hhix hhiy,
        bandOf_sectorOfBands]
      exact ⟨htX, htY⟩
    · rintro ⟨s, hs⟩
      rw [inSector_iff_bands n R b hR hlox hloy hhix hhiy] at hs
      have hx := inBandX_sub n R b hR hnix _ x hs.1
      have hy := inBandY_sub n R b hR hniy _ y hs.2
      exact ⟨hx.1, hx.2, hy.1, hy.2⟩
  all_goals
    simp only [hasBoundarySector, shrinkBox] <;> split_ifs <;> omega

/-- Under a tile width of at least `2R`, the private-box low coordinate on an
axis is exactly `t * w` (the unclipped tile start). -/
lemma priv_axis_lo (w t R : Int) (hR : 1 ≤ R) (hw : 2 * R ≤ w)
    (ht0 : 0 ≤ t) :
    (if max (t * w - R) 0 ≠ 0 then max (t * w - R) 0 + R
     else max (t * w - R) 0) = t * w := by
  have hw0 : 0 ≤ w := by omega
  have hcase : t * w = 0 ∨ w ≤ t * w := by
    rcases Int.lt_or_le t 1 with h | h
    · left
      have ht : t = 0 := by omega
      rw [ht, zero_mul]
    · right
      calc w = 1 * w := (one_mul w).symm
        _ ≤ t * w := mul_le_mul_of_nonneg_right h hw0
  split_ifs <;> omega

/-- Under a tile width of at least `2R`, the private-box high coordinate on
an axis is exactly `(t + 1) * w - 1` (the unclipped tile end). -/
lemma priv_axis_hi (P w t R n : Int) (hn : n = P * w) (hR : 1 ≤ R)
    (hw : 2 * R ≤ w) (htP : t < P) :
    (if min ((t + 1) * w + R) n - 1 ≠ n - 1
     then min ((t + 1) * w + R) n - 1 - R
     else min ((t + 1) * w + R) n - 1) = (t + 1) * w - 1 := by
  have hw0 : 0 ≤ w := by omega
  have hcase : (t + 1) * w = n ∨ (t + 1) * w ≤ n - w := by
    rcases Int.lt_or_le (t + 1) P with h | h
    · right
      have h1 : (t + 1) * w ≤ (P - 1) * w :=
        mul_le_mul_of_nonneg_right (by omega) hw0
      have h2 : (P - 1) * w = P * w - w := by ring
      omega
    · left
      have ht : t + 1 = P := by omega
      rw [ht, hn]
  split_ifs <;> omega

/-- Under the amended validity conditions, the private box of tile
`(tx, ty)` is exactly the unclipped tile
`[tx*w, (tx+1)*w - 1] × [ty*h, (ty+1)*h - 1]`. -/
lemma privateBox_eq (n Px Py R tx ty : Int)
    (hdx : Px ∣ n) (hdy : Py ∣ n) (hR : 1 ≤ R)
    (hwx : 2 * R ≤ n / Px) (hwy : 2 * R ≤ n / Py)
    (htx0 : 0 ≤ tx) (htxP : tx < Px) (hty0 : 0 ≤ ty) (htyP : ty < Py) :
    privateBox n Px Py R tx ty =
      ⟨tx * (n / Px), ty * (n / Py),
        (tx + 1) * (n / Px) - 1, (ty + 1) * (n / Py) - 1⟩ := by
  have hx1 := priv_axis_lo (n / Px) tx R hR hwx htx0
  have hy1 := priv_axis_lo (n / Py) ty R hR hwy hty0
  have hx2 := priv_axis_hi Px (n / Px) tx R n (Int.mul_ediv_cancel' hdx).symm
    hR hwx htxP
  have hy2 := priv_axis_hi Py (n / Py) ty R n (Int.mul_ediv_cancel' hdy).symm
    hR hwy htyP
  simp only [privateBox, haloBox, shrinkBox, Rect2.mk.injEq]
  exact ⟨hx1, hy1, hx2, hy2⟩

/-- The property C1 claims of a valid configuration and tile: the sectors of
`createBoundaryPartition` applied to the tile's private region are pairwise
disjoint, their union is exactly the private region, a perimeter edge sector
exists iff its edge condition holds, and a corner sector exists iff both
adjacent edge sectors exist. -/
def sectorTilingSpec (n Px Py R tx ty : Int) : Prop :=
  sectorTilingOfBox n R (privateBox n Px Py R tx ty)

/-- C1 (amended): sector tiling holds for every configuration with
`n` divisible by `Px` and `Py`, `2R+1 ≤ n`, and additionally a tile width of
at least `2R` on each axis. -/
theorem sector_tiling_amended (n Px Py R tx ty : Int)
    (hPx : 0 < Px) (hPy : 0 < Py) (hdx : Px ∣ n) (hdy : Py ∣ n)
    (hR : 1 ≤ R) (hn : 2 * R + 1 ≤ n)
    (htx0 : 0 ≤ tx) (htxP : tx < Px) (hty0 : 0 ≤ ty) (htyP : ty < Py)
    (hwx : 2 * R ≤ n / Px) (hwy : 2 * R ≤ n / Py) :
    sectorTilingSpec n Px Py R tx ty := by
  unfold sectorTilingSpec
  rw [privateBox_eq n Px Py R tx ty hdx hdy hR hwx hwy htx0 htxP hty0 htyP]
  have hnx : Px * (n / Px) = n := Int.mul_ediv_cancel' hdx
  have hny : Py * (n / Py) = n := Int.mul_ediv_cancel' hdy
  have hw0x : 0 ≤ n / Px := by omega
  have hw0y : 0 ≤ n / Py := by omega
  have hx0 : 0 ≤ tx * (n / Px) := mul_nonneg htx0 hw0x
  have hy0 : 0 ≤ ty * (n / Py) := mul_nonneg hty0 hw0y
  have hx1 : (tx + 1) * (n / Px) = tx * (n / Px) + n / Px := by ring
  have hy1 : (ty + 1) * (n / Py) = ty * (n / Py) + n / Py := by ring
  have hx2 : (tx + 1) * (n / Px) ≤ n := by
    have h1 : (tx + 1) * (n / Px) ≤ Px * (n / Px) :=
      mul_le_mul_of_nonneg_right (by omega) hw0x
    omega
  have hy2 : (ty + 1) * (n / Py) ≤ n := by
    have h1 : (ty + 1) * (n / Py) ≤ Py * (n / Py) :=
      mul_le_mul_of_nonneg_right (by omega) hw0y
    omega
  apply sectorTilingOfBox_holds n R _ hR
  · exact hx0
  · exact hy0
  · dsimp only
    omega
  · dsimp only
    omega
  · simp only [shrinkBox]
    split_ifs <;> omega
  · simp only [shrinkBox]
    split_ifs <;> omega

/-- Counterexample input for C1 as stated: the configuration
`n = 9, Px = 3, Py = 1, R = 2` is valid in the claim's sense
(`9 % 3 = 0`, `9 % 1 = 0`, `2R+1 = 5 ≤ 9`), yet for tile `(1, 0)` the LEFT
and RIGHT sectors both contain the point `(4, 0)`: the tile is only 3 cells
wide, the interior box is inverted by two positions, and the two sectors
overlap in the middle column. -/
theorem sector_tiling_counterexample :
    ((9 : Int) % 3 = 0 ∧ (9 : Int) % 1 = 0 ∧ 2 * 2 + 1 ≤ (9 : Int) ∧
      (1 : Int) ≤ 2 ∧ (0 : Int) ≤ 1 ∧ (1 : Int) < 3 ∧ (0 : Int) < 1) ∧
    ¬ sectorTilingSpec 9 3 1 2 1 0 := by
  refine ⟨by norm_num, ?_⟩
  intro h
  obtain ⟨hdisj, -⟩ := h
  have h₁ : inSector 9 2 (privateBox 9 3 1 2 1 0) .LEFT 4 0 := by decide
  have h₂ : inSector 9 2 (privateBox 9 3 1 2 1 0) .RIGHT 4 0 := by decide
  exact absurd (hdisj .LEFT .RIGHT 4 0 h₁ h₂) (by decide)

/-- Witness for C1 (amended) at `n = 8, Px = Py = 2, R = 1`, tile `(1, 0)`. -/
theorem sector_tiling_amended_witness :
    ((0 : Int) < 2 ∧ (2 : Int) ∣ 8 ∧ (1 : Int) ≤ 1 ∧ 2 * 1 + 1 ≤ (8 : Int) ∧
      (0 : Int) ≤ 1 ∧ (1 : Int) < 2 ∧ (0 : Int) ≤ 0 ∧ (0 : Int) < 2 ∧
      2 * 1 ≤ (8 : Int) / 2) ∧
    sectorTilingSpec 8 2 2 1 1 0 :=
  ⟨⟨by decide, by decide, by decide, by decide, by decide,
      by decide, by decide, by decide, by decide⟩,
    sector_tiling_amended 8 2 2 1 1 0 (by decide) (by decide)
      (by decide) (by decide) (by decide) (by decide)
      (by decide) (by decide) (by decide) (by decide)
      (by decide) (by decide)⟩

/-! ## Halo-extended tile bounding box (stencil.cc:433-448) -/

/-- The property C4 claims for tile `(tx, ty)`: per axis the halo-extended
box is `[max(tx*w - R, 0), min((tx+1)*w + R, n) - 1]`, and the halo of width
`R` is clipped (omitted) exactly where the tile touches the global boundary,
i.e. each side carries its full halo of width `R` iff the tile is not the
first (resp. last) tile on that axis. -/
def haloBoxSpec (n Px Py R tx ty : Int) : Prop :=
  let w := n / Px
  let h := n / Py
  let hb := haloBox n w h R tx ty
  hb = ⟨max (tx * w - R) 0, max (ty * h - R) 0,
        min ((tx + 1) * w + R) n - 1, min ((ty + 1) * h + R) n - 1⟩ ∧
  (hb.lox = tx * w - R ↔ tx ≠ 0) ∧
  (hb.loy = ty * h - R ↔ ty ≠ 0) ∧
  (hb.hix = (tx + 1) * w - 1 + R ↔ tx ≠ Px - 1) ∧
  (hb.hiy = (ty + 1) * h - 1 + R ↔ ty ≠ Py - 1)

/-- Full-halo iff on the low side of an axis, for tile width at least `R`. -/
lemma halo_axis_lo (w t R : Int) (hR : 1 ≤ R) (hw : R ≤ w) (ht0 : 0 ≤ t) :
    max (t * w - R) 0 = t * w - R ↔ t ≠ 0 := by
  have hw0 : 0 ≤ w := by omega
  have hcase : (t * w = 0 ∧ t = 0) ∨ (w ≤ t * w ∧ t ≠ 0) := by
    rcases Int.lt_or_le t 1 with h | h
    · left
      have ht : t = 0 := by omega
      rw [ht, zero_mul]
      exact ⟨rfl, rfl⟩
    · right
      refine ⟨?_, by omega⟩
      calc w = 1 * w := (one_mul w).symm
        _ ≤ t * w := mul_le_mul_of_nonneg_right h hw0
  omega

/-- Full-halo iff on the high side of an axis, for tile width at least `R`. -/
lemma halo_axis_hi (P w t R n : Int) (hn : n = P * w) (hR : 1 ≤ R)
    (hw : R ≤ w) (htP : t < P) :
    min ((t + 1) * w + R) n - 1 = (t + 1) * w - 1 + R ↔ t ≠ P - 1 := by
  have hw0 : 0 ≤ w := by omega
  have hcase : ((t + 1) * w = n ∧ t = P - 1) ∨
      ((t + 1) * w ≤ n - w ∧ t ≠ P - 1) := by
    rcases Int.lt_or_le (t + 1) P with h | h
    · right
      have h1 : (t + 1) * w ≤ (P - 1) * w :=
        mul_le_mul_of_nonneg_right (by omega) hw0
      have h2 : (P - 1) * w = P * w - w := by ring
      exact ⟨by omega, by omega⟩
    · left
      have ht : t + 1 = P := by omega
      rw [← ht] at hn
      exact ⟨hn.symm, by omega⟩
  omega

/-- C4 (amended): the halo-box formula always holds, and with the additional
hypothesis that the tile width on each axis is at least `R`, the halo is
clipped exactly where the tile touches the global boundary. -/
theorem halo_box_amended (n Px Py R tx ty : Int)
    (hPx : 0 < Px) (hPy : 0 < Py) (hdx : Px ∣ n) (hdy : Py ∣ n)
    (hR : 1 ≤ R) (hn : 2 * R + 1 ≤ n)
    (htx0 : 0 ≤ tx) (htxP : tx < Px) (hty0 : 0 ≤ ty) (htyP : ty < Py)
    (hwx : R ≤ n / Px) (hwy : R ≤ n / Py) :
    haloBoxSpec n Px Py R tx ty := by
  refine ⟨rfl, ?_, ?_, ?_, ?_⟩
  · exact halo_axis_lo (n / Px) tx R hR hwx htx0
  · exact halo_axis_lo (n / Py) ty R hR hwy hty0
  · exact halo_axis_hi Px (n / Px) tx R n (Int.mul_ediv_cancel' hdx).symm
      hR hwx htxP
  · exact halo_axis_hi Py (n / Py) ty R n (Int.mul_ediv_cancel' hdy).symm
      hR hwy htyP

/-- Counterexample input for C4 as stated: with the valid configuration
`n = 8, Px = Py = 4, R = 3` (`8 % 4 = 0`, `2R+1 = 7 ≤ 8`), tile `(1, 1)`
does not touch the low-x boundary, yet its halo is clipped there:
`max(1*2 - 3, 0) = 0 ≠ 1*2 - 3`, because the tile is only 2 cells wide while
the radius is 3. -/
theorem halo_box_counterexample :
    ((8 : Int) % 4 = 0 ∧ 2 * 3 + 1 ≤ (8 : Int) ∧
      (0 : Int) ≤ 1 ∧ (1 : Int) < 4) ∧
    ¬ haloBoxSpec 8 4 4 3 1 1 := by
  refine ⟨by norm_num, ?_⟩
  intro h
  obtain ⟨-, h2, -⟩ := h
  have h3 := h2.mpr (by decide)
  exact absurd h3 (by decide)

/-- Witness for C4 (amended) at `n = 8, Px = Py = 2, R = 1`, tile `(1, 0)`. -/
theorem halo_box_amended_witness :
    ((0 : Int) < 2 ∧ (2 : Int) ∣ 8 ∧ (1 : Int) ≤ 1 ∧ 2 * 1 + 1 ≤ (8 : Int) ∧
      (0 : Int) ≤ 1 ∧ (1 : Int) < 2 ∧ (0 : Int) ≤ 0 ∧ (0 : Int) < 2 ∧
      (1 : Int) ≤ (8 : Int) / 2) ∧
    haloBoxSpec 8 2 2 1 1 0 :=
  ⟨⟨by decide, by decide, by decide, by decide, by decide,
      by decide, by decide, by decide, by decide⟩,
    halo_box_amended 8 2 2 1 1 0 (by decide) (by decide)
      (by decide) (by decide) (by decide) (by decide)
      (by decide) (by decide) (by decide) (by decide)
      (by decide) (by decide)⟩

/-! ## Validation check (`check_task`, stencil.cc:1347-1395; final decision,
stencil.cc:586-599).  Field values are modelled as exact rationals; `DTYPE`
is `double` (stencil.cc:64-71), whose constants embed exactly. -/

/-- `COEFX` (stencil.cc:69). -/
def COEFX : ℚ := 1

/-- `COEFY` (stencil.cc:70). -/
def COEFY : ℚ := 1

/-- `EPSILON` for the `double` build (stencil.cc:68), i.e. `1.e-8`. -/
def EPSILON : ℚ := 1 / 100000000

/-- The accumulation loop of `check_task` (stencil.cc:1373-1393): over the
cells `(luX + i, luY + j)` of the thread's block `rect`, skip cells within
`RADIUS` of a global grid edge, and accumulate the absolute deviation of the
output value from `numIterations * (COEFX + COEFY)`.  The row-major pointer
read `OUT(i, j)` is modelled as `vals` applied to the cell's global
coordinates. -/
def check_task (n R numIterations : Int) (vals : Int → Int → ℚ)
    (rect : Rect2) : ℚ :=
  (List.range (rect.hiy - rect.loy + 1).toNat).foldl
    (fun (abserr : ℚ) (j : ℕ) =>
      (List.range (rect.hix - rect.lox + 1).toNat).foldl
        (fun (abserr2 : ℚ) (i : ℕ) =>
          if rect.lox + (i : Int) < R ∨ rect.loy + (j : Int) < R ∨
              n - R ≤ rect.lox + (i : Int) ∨ n - R ≤ rect.loy + (j : Int) then
            abserr2
          else
            abserr2 +
              |vals (rect.lox + (i : Int)) (rect.loy + (j : Int)) -
                (numIterations : ℚ) * (COEFX + COEFY)|)
        abserr)
    0

/-- The accumulation of per-block / per-tile results into a single total
(`abserr += ...`, stencil.cc:1092-1093 and 566-579). -/
def totalAbserr (results : List ℚ) : ℚ :=
  results.foldl (fun abserr r => abserr + r) 0

/-- The final validation decision (stencil.cc:586-599): the run succeeds iff
the total error is strictly below `EPSILON`; otherwise the process exits
with `EXIT_FAILURE`. -/
def validationSucceeds (abserr : ℚ) : Prop :=
  abserr < EPSILON

/-- The property C5 claims of one block's check: the loop computes exactly
the sum, over the cells of the block at distance `≥ R` from every global
grid edge, of the deviation from `numIterations * (COEFX + COEFY)`. -/
def checkSpec (n R numIterations : Int) (vals : Int → Int → ℚ)
    (rect : Rect2) : Prop :=
  check_task n R numIterations vals rect =
    ∑ p ∈ (Finset.Icc rect.lox rect.hix ×ˢ Finset.Icc rect.loy rect.hiy).filter
        (fun p => R ≤ p.1 ∧ p.1 < n - R ∧ R ≤ p.2 ∧ p.2 < n - R),
      |vals p.1 p.2 - (numIterations : ℚ) * (COEFX + COEFY)|

/-- One row of the check loop, as a `Finset.range` sum. -/
lemma check_inner_eq_sum (n R numIterations lox loy : Int)
    (vals : Int → Int → ℚ) (jv : Int) (k : ℕ) (init : ℚ) :
    (List.range k).foldl
      (fun (abserr2 : ℚ) (i : ℕ) =>
        if lox + (i : Int) < R ∨ loy + jv < R ∨
            n - R ≤ lox + (i : Int) ∨ n - R ≤ loy + jv then
          abserr2
        else
          abserr2 +
            |vals (lox + (i : Int)) (loy + jv) -
              (numIterations : ℚ) * (COEFX + COEFY)|)
      init =
    init + ∑ i ∈ Finset.range k,
      (if lox + (i : Int) < R ∨ loy + jv < R ∨
          n - R ≤ lox + (i : Int) ∨ n - R ≤ loy + jv then 0
       else
        |vals (lox + (i : Int)) (loy + jv) -
          (numIterations : ℚ) * (COEFX + COEFY)|) := by
  induction k with
  | zero => simp
  | succ m ih =>
      rw [List.range_succ, List.foldl_append, ih, Finset.sum_range_succ,
        List.foldl_cons, List.foldl_nil]
      split_ifs with h
      · ring
      · ring

/-- The double loop of `check_task`, as a double `Finset.range` sum. -/
lemma check_task_eq_double_sum (n R numIterations : Int)
    (vals : Int → Int → ℚ) (rect : Rect2) :
    check_task n R numIterations vals rect =
      ∑ j ∈ Finset.range (rect.hiy - rect.loy + 1).toNat,
        ∑ i ∈ Finset.range (rect.hix - rect.lox + 1).toNat,
          (if rect.lox + (i : Int) < R ∨ rect.loy + (j : Int) < R ∨
              n - R ≤ rect.lox + (i : Int) ∨ n - R ≤ rect.loy + (j : Int)
           then 0
           else
            |vals (rect.lox + (i : Int)) (rect.loy + (j : Int)) -
              (numIterations : ℚ) * (COEFX + COEFY)|) := by
  unfold check_task
  generalize (rect.hiy - rect.loy + 1).toNat = bY
  induction bY with
  | zero => simp
  | succ m ih =>
      rw [List.range_succ, List.foldl_append, ih, List.foldl_cons,
        List.foldl_nil, check_inner_eq_sum, Finset.sum_range_succ]

/-- The embedding of `i ↦ lo + i` from block-local to global coordinates. -/
def castAddEmb (lo : Int) : ℕ ↪ ℤ :=
  ⟨fun i => lo + (i : Int), by intro a b h; simpa using h⟩

lemma range_map_eq_Icc (lo hi : Int) :
    (Finset.range (hi - lo + 1).toNat).map (castAddEmb lo) =
      Finset.Icc lo hi := by
  ext x
  simp only [Finset.mem_map, Finset.mem_range, Finset.mem_Icc, castAddEmb,
    Function.Embedding.coeFn_mk]
  constructor
  · rintro ⟨i, hik, rfl⟩
    omega
  · intro hx
    exact ⟨(x - lo).toNat, by omega, by omega⟩

/-- C5: each block's check accumulates the deviation from
`numIterations * (COEFX + COEFY)` over exactly the cells of the block at
distance `≥ R` from every global grid edge; the per-block and per-tile
results are summed; and the run succeeds iff the total is strictly below
the fixed epsilon `1e-8`. -/
theorem check_validation_correct (n R numIterations : Int)
    (vals : Int → Int → ℚ) (rect : Rect2) (results : List ℚ) (abserr : ℚ) :
    checkSpec n R numIterations vals rect ∧
    totalAbserr results = results.sum ∧
    (validationSucceeds abserr ↔ abserr < 1 / 100000000) := by
  refine ⟨?_, ?_, Iff.rfl⟩
  · unfold checkSpec
    rw [check_task_eq_double_sum, Finset.sum_comm, Finset.sum_filter,
      Finset.sum_product, ← range_map_eq_Icc rect.lox rect.hix,
      ← range_map_eq_Icc rect.loy rect.hiy]
    simp only [Finset.sum_map, castAddEmb, Function.Embedding.coeFn_mk]
    refine Finset.sum_congr rfl (fun i hi => ?_)
    refine Finset.sum_congr rfl (fun j hj => ?_)
    by_cases h : (rect.lox + (i : Int) < R ∨ rect.loy + (j : Int) < R ∨
        n - R ≤ rect.lox + (i : Int) ∨ n - R ≤ rect.loy + (j : Int))
    · rw [if_pos h, if_neg (by omega)]
    · rw [if_neg h, if_pos (by omega)]
  · have hfold : ∀ (l : List ℚ) (init : ℚ),
        l.foldl (fun abserr r => abserr + r) init = init + l.sum := by
      intro l
      induction l with
      | nil => intro init; simp
      | cons a t ih =>
          intro init
          rw [List.foldl_cons, List.sum_cons, ih]
          ring
    rw [totalAbserr, hfold]
    ring

/-! ## Boundary-sector ghost dependencies (`spmd_task`, stencil.cc:1019-1043) -/

/-- The list of ghost directions added as inputs to the boundary launcher
for sector index `dir`: the loop `for (idx = 0; idx <= dir % 2; ++idx)`
adds `ghostLrs[(dir / 2 + idx) % 4]` (stencil.cc:1030-1036). -/
def ghostInputDirs (dir : Nat) : List Nat :=
  (List.range (dir % 2 + 1)).map (fun idx => (dir / 2 + idx) % 4)

/-- The kinds of region requirement added to one boundary-task launch. -/
inductive ReqRegion where
  | boundarySector (dir : Nat)
  | weight
  | ghost (g : Nat)
  | privateIn
deriving DecidableEq, Repr

/-- The region requirements of one boundary-task launch, in program order
(stencil.cc:1022-1039): the sector itself (`FID_OUT`, read-write), the
weights, the adjacent ghost regions (`FID_IN`, read-only), and the private
region (`FID_IN`, read-only). -/
def boundaryLauncherReqs (dir : Nat) : List ReqRegion :=
  [ReqRegion.boundarySector dir, ReqRegion.weight] ++
    (ghostInputDirs dir).map ReqRegion.ghost ++ [ReqRegion.privateIn]

/-- The numeric color of each sector (enum `Boundary`, stencil.cc:272-282). -/
def sectorIdx : Boundary → Nat
  | .LEFT => 0
  | .LEFT_UP => 1
  | .UP => 2
  | .UP_RIGHT => 3
  | .RIGHT => 4
  | .RIGHT_DOWN => 5
  | .DOWN => 6
  | .DOWN_LEFT => 7
  | .INTERIOR => 8

/-- The property C6 claims of the per-iteration boundary launches: each of
the 4 edge sectors gets exactly the 1 adjacent ghost-direction input
`dir / 2`, each of the 4 corner sectors gets exactly the 2 adjacent
ghost-direction inputs `dir / 2` and `(dir / 2 + 1) % 4`, every boundary
sector also receives the private region as input, and every boundary sector
depends on 1 or 2 ghost directions, never 0 and never more than 2. -/
def boundaryGhostSpec : Prop :=
  (∀ s ∈ [Boundary.LEFT, Boundary.UP, Boundary.RIGHT, Boundary.DOWN],
      ghostInputDirs (sectorIdx s) = [sectorIdx s / 2]) ∧
  (∀ s ∈ [Boundary.LEFT_UP, Boundary.UP_RIGHT, Boundary.RIGHT_DOWN,
      Boundary.DOWN_LEFT],
      ghostInputDirs (sectorIdx s) =
        [sectorIdx s / 2, (sectorIdx s / 2 + 1) % 4]) ∧
  (∀ dir, dir < 8 →
      1 ≤ (ghostInputDirs dir).length ∧ (ghostInputDirs dir).length ≤ 2 ∧
      ReqRegion.privateIn ∈ boundaryLauncherReqs dir)

/-- C6: boundary-sector ghost dependencies are exactly as claimed for all 8
boundary sectors. -/
theorem boundary_ghost_deps : boundaryGhostSpec := by
  unfold boundaryGhostSpec ghostInputDirs boundaryLauncherReqs
  decide

/-! ## Per-shard placement (`StencilMapper::map_must_epoch`,
stencil.cc:177-188) -/

/-- `shards_per_node = tasks.size() / num_nodes` (stencil.cc:181). -/
def shardsPerNode (totalShards numNodes : Nat) : Nat :=
  totalShards / numNodes

/-- Node of shard `i`: `proc_map[i / shards_per_node]` (stencil.cc:186). -/
def shardNode (totalShards numNodes i : Nat) : Nat :=
  i / shardsPerNode totalShards numNodes

/-- Position of shard `i` in its node's processor list:
`begin() + i % shards_per_node` (stencil.cc:186). -/
def shardSlot (totalShards numNodes i : Nat) : Nat :=
  i % shardsPerNode totalShards numNodes

/-- The property C7 claims of the per-shard placement with `T` shards and
`N` nodes: when `N` evenly divides `T`, shard `i` goes to position
`i % (T / N)` in the processor list of node `i / (T / N)`, both in range, so
each node receives exactly `T / N` shards on pairwise distinct resources;
when `N` does not divide `T`, the assignment fails (a division by zero, or a
shard directed at a node index that does not exist). -/
def placementSpec (T N : Nat) : Prop :=
  (N ∣ T →
    (∀ i, i < T →
        shardNode T N i = i / (T / N) ∧ shardSlot T N i = i % (T / N) ∧
        shardNode T N i < N ∧ shardSlot T N i < T / N) ∧
    (∀ j, j < N →
        ((Finset.range T).filter (fun i => shardNode T N i = j)).card =
          T / N) ∧
    (∀ i₁, i₁ < T → ∀ i₂, i₂ < T → shardNode T N i₁ = shardNode T N i₂ →
        shardSlot T N i₁ = shardSlot T N i₂ → i₁ = i₂)) ∧
  (¬ N ∣ T →
    shardsPerNode T N = 0 ∨ ∃ i, i < T ∧ N ≤ shardNode T N i)

/-- C7: the per-shard placement assignment is as claimed. -/
theorem placement_assignment (T N : Nat) (hN : 0 < N) (hT : 0 < T) :
    placementSpec T N := by
  constructor
  · intro hdvd
    obtain ⟨k, hk⟩ := hdvd
    have hspn : T / N = k := by
      rw [hk]
      exact Nat.mul_div_cancel_left k hN
    have hk0 : 0 < k := by
      rcases Nat.eq_zero_or_pos k with h | h
      · rw [h, mul_zero] at hk
        omega
      · exact h
    refine ⟨?_, ?_, ?_⟩
    · intro i hi
      refine ⟨rfl, rfl, ?_, ?_⟩
      · show i / shardsPerNode T N < N
        rw [shardsPerNode, hspn, Nat.div_lt_iff_lt_mul hk0]
        omega
      · show i % shardsPerNode T N < T / N
        rw [shardsPerNode, hspn]
        exact Nat.mod_lt i hk0
    · intro j hj
      have hset : (Finset.range T).filter
          (fun i => shardNode T N i = j) = Finset.Ico (j * k) ((j + 1) * k) := by
        ext i
        simp only [Finset.mem_filter, Finset.mem_range, Finset.mem_Ico,
          shardNode, shardsPerNode, hspn]
        constructor
        · rintro ⟨hiT, rfl⟩
          refine ⟨?_, ?_⟩
          · calc i / k * k ≤ i := Nat.div_mul_le_self i k
              _ = i := rfl
          · rw [← Nat.div_lt_iff_lt_mul hk0]
            omega
        · rintro ⟨h1, h2⟩
          have hj1 : j ≤ i / k := (Nat.le_div_iff_mul_le hk0).mpr h1
          have hj2 : i / k < j + 1 := by
            rw [Nat.div_lt_iff_lt_mul hk0]
            exact h2
          have hiT : i < T := by
            have : (j + 1) * k ≤ N * k :=
              Nat.mul_le_mul_right k (by omega)
            omega
          exact ⟨hiT, by omega⟩
      rw [hset, Nat.card_Ico, hspn]
      have : (j + 1) * k = j * k + k := by ring
      omega
    · intro i₁ h₁ i₂ h₂ hnode hslot
      simp only [shardNode, shardSlot, shardsPerNode, hspn] at hnode hslot
      have d₁ := Nat.div_add_mod i₁ k
      have d₂ := Nat.div_add_mod i₂ k
      rw [hnode, hslot] at d₁
      omega
  · intro hndvd
    rcases Nat.lt_or_ge T N with h | h
    · left
      rw [shardsPerNode]
      exact Nat.div_eq_of_lt h
    · right
      have hspn : 0 < T / N := Nat.div_pos h hN
      have hle : N * (T / N) ≤ T := Nat.mul_div_le T N
      have hne : N * (T / N) ≠ T := by
        intro heq
        exact hndvd ⟨T / N, heq.symm⟩
      refine ⟨T - 1, by omega, ?_⟩
      rw [shardNode, shardsPerNode, Nat.le_div_iff_mul_le hspn]
      omega

/-- Witness for C7 at `T = 6` shards over `N = 2` nodes. -/
theorem placement_assignment_witness :
    (0 < 2 ∧ 0 < 6) ∧ placementSpec 6 2 :=
  ⟨⟨by decide, by decide⟩, placement_assignment 6 2 (by decide) (by decide)⟩

/-! ## CLI input validation (`top_level_task`, stencil.cc:326-410, 586-599) -/

/-- The factor search at stencil.cc:379-385: starting from
`(int) sqrt(num_ranks + 1)` and counting down, the first divisor of
`num_ranks` (0 if the loop exhausts).  The C cast of the correctly rounded
`double` square root truncates to `Nat.sqrt (numRanks + 1)` for every rank
count below the `double` precision limit. -/
def numProcsSearch (numRanks : Nat) : Nat → Nat
  | 0 => 0
  | k + 1 =>
      if numRanks % (k + 1) = 0 then k + 1 else numProcsSearch numRanks k

/-- `Num_procsx` (stencil.cc:379-385). -/
def numProcsX (numRanks : Nat) : Nat :=
  numProcsSearch numRanks (Nat.sqrt (numRanks + 1))

/-- `Num_procsy = num_ranks / Num_procsx` (stencil.cc:383). -/
def numProcsY (numRanks : Nat) : Nat :=
  numRanks / numProcsX numRanks

/-- The chain of configuration checks in `top_level_task`
(stencil.cc:328-410), each of which calls `exit(EXIT_FAILURE)`, in program
order. -/
def topLevelConfigAborts (argc : Nat) (threads iterations n : Int)
    (numRanks : Nat) (radius : Int) : Bool :=
  if argc < 4 then true
  else if threads ≤ 0 then true
  else if iterations < 1 then true
  else if n ≤ 0 then true
  else if n % (numProcsX numRanks : Int) ≠ 0 then true
  else if n % (numProcsY numRanks : Int) ≠ 0 then true
  else if radius < 1 then true
  else if 2 * radius + 1 > n then true
  else false

/-- The whole run aborts iff a configuration check fires or the final
validation (stencil.cc:586-599) measures an accumulated error of at least
`EPSILON`. -/
def runAborts (argc : Nat) (threads iterations n : Int) (numRanks : Nat)
    (radius : Int) (abserr : ℚ) : Bool :=
  topLevelConfigAborts argc threads iterations n numRanks radius ||
    if abserr < EPSILON then false else true

/-- The property C9 claims: the process exits with a non-zero status exactly
when one of the listed conditions holds, and a well-formed configuration
passes every check. -/
def cliValidationSpec (argc : Nat) (threads iterations n : Int)
    (numRanks : Nat) (radius : Int) (abserr : ℚ) : Prop :=
  runAborts argc threads iterations n numRanks radius abserr = true ↔
    (argc < 4 ∨ threads ≤ 0 ∨ iterations < 1 ∨ n ≤ 0 ∨
      ¬ ((numProcsX numRanks : Int) ∣ n) ∨
      ¬ ((numProcsY numRanks : Int) ∣ n) ∨
      radius < 1 ∨ 2 * radius + 1 > n ∨ EPSILON ≤ abserr)

/-- C9: CLI input validation.  The hypothesis `1 ≤ numRanks` keeps every
embedded `%` on operands where Lean's and C's semantics agree (with zero
ranks the C code would divide by zero before any of the checks compared
here). -/
theorem cli_validation (argc : Nat) (threads iterations n : Int)
    (numRanks : Nat) (radius : Int) (abserr : ℚ)
    (hranks : 1 ≤ numRanks) :
    cliValidationSpec argc threads iterations n numRanks radius abserr := by
  unfold cliValidationSpec runAborts topLevelConfigAborts
  rw [Int.dvd_iff_emod_eq_zero, Int.dvd_iff_emod_eq_zero]
  by_cases hv : abserr < EPSILON
  · rw [if_pos hv]
    have hv' : ¬ EPSILON ≤ abserr := not_le.mpr hv
    split_ifs <;> simp_all
  · rw [if_neg hv]
    have hv' : EPSILON ≤ abserr := not_lt.mp hv
    split_ifs <;> simp_all

/-- Witness for C9: a well-formed configuration (`argc = 4`, 4 threads, 10
iterations, `n = 8`, 4 ranks giving a `2 × 2` grid, radius 2, zero error)
aborts nowhere, i.e. both sides of the iff are false. -/
theorem cli_validation_witness :
    1 ≤ 4 ∧ cliValidationSpec 4 4 10 8 4 2 0 :=
  ⟨by decide, cli_validation 4 4 10 8 4 2 0 (by decide)⟩

/-! ## NUMA-node CLI argument (stencil.cc:356-358) -/

/-- `atoi` restricted to strings whose first character is a decimal digit —
the only case in which stencil.cc:358 reaches it: the value of the maximal
leading digit run. -/
def atoiDigitLed : List Char → Int → Int
  | c :: rest, acc =>
      if '0' ≤ c ∧ c ≤ '9' then
        atoiDigitLed rest (acc * 10 + ((c.toNat : Int) - ('0'.toNat : Int)))
      else acc
  | [], acc => acc

/-- The guard `'0' <= argv[4][0] && argv[4][0] <= '9'` of stencil.cc:357: an
empty argument starts with `'\0'`, which fails the test. -/
def firstCharIsDigit : List Char → Bool
  | c :: _ => if '0' ≤ c ∧ c ≤ '9' then true else false
  | [] => false

/-- The NUMA-node count read from the command line (stencil.cc:356-358):
defaults to 1; replaced by `atoi(argv[4])` only when a fifth argument exists
and its first character is a decimal digit. -/
def numaNodesOfArgs (argc : Nat) (argv4 : List Char) : Int :=
  if 4 < argc ∧ firstCharIsDigit argv4 = true then atoiDigitLed argv4 0
  else 1

/-- The property C10 claims: the fourth optional argument is honored exactly
when its first character is a decimal digit; any other argument (including a
negative number starting with `'-'`, whose first character is not a digit)
is silently ignored and the count stays at the default 1. -/
def numaArgSpec (argc : Nat) (argv4 : List Char) : Prop :=
  (∀ c rest, argv4 = c :: rest → ('0' ≤ c ∧ c ≤ '9') → 4 < argc →
      numaNodesOfArgs argc argv4 = atoiDigitLed argv4 0) ∧
  (firstCharIsDigit argv4 = false → numaNodesOfArgs argc argv4 = 1) ∧
  (¬ 4 < argc → numaNodesOfArgs argc argv4 = 1) ∧
  (∀ rest, argv4 = '-' :: rest → numaNodesOfArgs argc argv4 = 1)

/-- C10: the NUMA-node argument is honored exactly for digit-led fifth
arguments and silently defaults to 1 otherwise. -/
theorem numa_arg_handling (argc : Nat) (argv4 : List Char) :
    numaArgSpec argc argv4 := by
  refine ⟨?_, ?_, ?_, ?_⟩
  · rintro c rest rfl hdig hargc
    rw [numaNodesOfArgs, if_pos]
    exact ⟨hargc, by rw [firstCharIsDigit, if_pos hdig]⟩
  · intro h
    rw [numaNodesOfArgs, if_neg]
    rintro ⟨-, h2⟩
    rw [h] at h2
    exact Bool.false_ne_true h2
  · intro h
    rw [numaNodesOfArgs, if_neg]
    rintro ⟨h1, -⟩
    exact h h1
  · rintro rest rfl
    rw [numaNodesOfArgs, if_neg]
    rintro ⟨-, h2⟩
    rw [firstCharIsDigit] at h2
    split_ifs at h2 with hd
    exact absurd hd (by decide)

/-! ## Co-scheduled memory agreement (`StencilMapper::map_must_epoch`,
stencil.cc:190-232).  Task, processor, memory and region identities are
abstract numerals; `target_ranking` after `clear(); push_back(m)` is the
single memory `m`, modelled as `Option` (`none` = not touched by the
constraint passes). -/

/-- One aliasing constraint of the must-epoch launch (`MappingConstraint`):
a (task, region index) pair on each side. -/
structure MappingConstraint where
  t1 : Nat
  idx1 : Nat
  t2 : Nat
  idx2 : Nat
deriving DecidableEq, Repr

/-- The fixed environment of `map_must_epoch`: each task's target processor
(assigned at stencil.cc:185-186), the node-local system memory of each
processor (`all_sysmems`), and the logical region of each (task, index)
slot (`task->regions[idx].region`). -/
structure MustEpochEnv where
  proc : Nat → Nat
  sysmem : Nat → Nat
  reg : Nat → Nat → Nat

/-- State threaded through the two constraint passes. -/
structure MustEpochState where
  ranking : Nat → Nat → Option Nat
  mappings : Nat → Option Nat

/-- `regions[idx].target_ranking.clear(); push_back(m)` on one slot. -/
def setRank (r : Nat → Nat → Option Nat) (t i m : Nat) :
    Nat → Nat → Option Nat :=
  fun t' i' => if t' = t ∧ i' = i then some m else r t' i'

def initMustEpochState : MustEpochState :=
  ⟨fun _ _ => none, fun _ => none⟩

/-- First pass (stencil.cc:192-217): a constraint with a side at region
index 0 forces both sides' rankings to the system memory of that side's
target processor (`idx1` checked first) and records that memory in
`mappings` under that side's region; all other constraints are skipped. -/
def pass1Step (env : MustEpochEnv) (s : MustEpochState)
    (c : MappingConstraint) : MustEpochState :=
  if c.idx1 = 0 then
    { ranking := setRank (setRank s.ranking c.t1 c.idx1
        (env.sysmem (env.proc c.t1))) c.t2 c.idx2
        (env.sysmem (env.proc c.t1))
      mappings := fun r => if r = env.reg c.t1 c.idx1
        then some (env.sysmem (env.proc c.t1)) else s.mappings r }
  else if c.idx2 = 0 then
    { ranking := setRank (setRank s.ranking c.t1 c.idx1
        (env.sysmem (env.proc c.t2))) c.t2 c.idx2
        (env.sysmem (env.proc c.t2))
      mappings := fun r => if r = env.reg c.t2 c.idx2
        then some (env.sysmem (env.proc c.t2)) else s.mappings r }
  else s

/-- Second pass (stencil.cc:219-232): a constraint with neither side at
index 0 looks up the memory recorded for the region of its `t1` side;
`assert(it != mappings.end())` is modelled as the fatal result `none`; on
success both sides' rankings are forced to the recorded memory. -/
def pass2Step (env : MustEpochEnv) (s : MustEpochState)
    (c : MappingConstraint) : Option MustEpochState :=
  if c.idx1 ≠ 0 ∧ c.idx2 ≠ 0 then
    (s.mappings (env.reg c.t1 c.idx1)).map (fun m =>
      { ranking := setRank (setRank s.ranking c.t1 c.idx1 m) c.t2 c.idx2 m
        mappings := s.mappings })
  else some s

/-- The two passes of `map_must_epoch` over the constraint list, in order:
first every primary-slot constraint, then the deferred ones. -/
def mapMustEpoch (env : MustEpochEnv) (cs : List MappingConstraint) :
    Option MustEpochState :=
  List.foldlM (pass2Step env) (cs.foldl (pass1Step env) initMustEpochState)
    cs

/-- A deferred constraint: neither side at the primary slot 0. -/
def mustEpochDeferred (c : MappingConstraint) : Prop :=
  c.idx1 ≠ 0 ∧ c.idx2 ≠ 0

/-- Constraint `c` records memory for region `r` during the first pass. -/
def recordsRegion (env : MustEpochEnv) (c : MappingConstraint) (r : Nat) :
    Prop :=
  (c.idx1 = 0 ∧ env.reg c.t1 0 = r) ∨
    (c.idx1 ≠ 0 ∧ c.idx2 = 0 ∧ env.reg c.t2 0 = r)

/-- Constraint `c` writes ranking slot `(t, i)` when processed. -/
def writesSlot (c : MappingConstraint) (t i : Nat) : Prop :=
  (c.t1 = t ∧ c.idx1 = i) ∨ (c.t2 = t ∧ c.idx2 = i)

/-- The memory a primary-slot constraint pushes to both sides: the system
memory of the processor of whichever side is at slot 0 (`idx1` wins). -/
def primaryVal (env : MustEpochEnv) (c : MappingConstraint) : Nat :=
  if c.idx1 = 0 then env.sysmem (env.proc c.t1)
  else env.sysmem (env.proc c.t2)

/-- The non-primary ranking slots a constraint touches. -/
def nzSlots (c : MappingConstraint) : List (Nat × Nat) :=
  (if c.idx1 = 0 then [] else [(c.t1, c.idx1)]) ++
    (if c.idx2 = 0 then [] else [(c.t2, c.idx2)])

lemma mem_nzSlots (c : MappingConstraint) (t i : Nat) :
    (t, i) ∈ nzSlots c ↔ (i ≠ 0 ∧ writesSlot c t i) := by
  unfold nzSlots writesSlot
  split_ifs with h1 h2 h2
  · simp only [List.append_nil, List.not_mem_nil, false_iff]
    rintro ⟨hi0, ⟨-, hw⟩ | ⟨-, hw⟩⟩ <;> omega
  · simp only [List.nil_append, List.mem_singleton, Prod.mk.injEq]
    constructor
    · rintro ⟨ht, hidx⟩
      exact ⟨by omega, Or.inr ⟨ht.symm, hidx.symm⟩⟩
    · rintro ⟨hi0, ⟨-, hw⟩ | ⟨ht, hw⟩⟩
      · omega
      · exact ⟨ht.symm, hw.symm⟩
  · simp only [List.append_nil, List.mem_singleton, Prod.mk.injEq]
    constructor
    · rintro ⟨ht, hidx⟩
      exact ⟨by omega, Or.inl ⟨ht.symm, hidx.symm⟩⟩
    · rintro ⟨hi0, ⟨ht, hw⟩ | ⟨-, hw⟩⟩
      · exact ⟨ht.symm, hw.symm⟩
      · omega
  · simp only [List.cons_append, List.nil_append, List.mem_cons,
      List.not_mem_nil, or_false, Prod.mk.injEq]
    constructor
    · rintro (⟨ht, hidx⟩ | ⟨ht, hidx⟩)
      · exact ⟨by omega, Or.inl ⟨ht.symm, hidx.symm⟩⟩
      · exact ⟨by omega, Or.inr ⟨ht.symm, hidx.symm⟩⟩
    · rintro ⟨hi0, ⟨ht, hw⟩ | ⟨ht, hw⟩⟩
      · exact Or.inl ⟨ht.symm, hw.symm⟩
      · exact Or.inr ⟨ht.symm, hw.symm⟩

/-- Under a duplicate-free non-primary slot list, two constraints writing
the same non-primary slot are equal. -/
lemma writer_unique (cs : List MappingConstraint)
    (H2 : (cs.flatMap nzSlots).Nodup) (t i : Nat) (hi : i ≠ 0) :
    ∀ c ∈ cs, ∀ c' ∈ cs, writesSlot c t i → writesSlot c' t i → c = c' := by
  induction cs with
  | nil => intro c hc; exact absurd hc (List.not_mem_nil c)
  | cons c0 rest ih =>
      rw [List.flatMap_cons, List.nodup_append] at H2
      obtain ⟨h0, hrest, hdisj⟩ := H2
      have hmem : ∀ c'' ∈ rest, writesSlot c'' t i →
          (t, i) ∈ rest.flatMap nzSlots :=
        fun c'' hc'' hw'' =>
          (List.mem_flatMap).mpr ⟨c'', hc'', (mem_nzSlots _ _ _).mpr ⟨hi, hw''⟩⟩
      intro c hc c' hc' hw hw'
      rcases List.mem_cons.mp hc with h | h
      · rcases List.mem_cons.mp hc' with h' | h'
        · rw [h, h']
        · rw [h] at hw
          exact (hdisj ((mem_nzSlots _ _ _).mpr ⟨hi, hw⟩) (hmem c' h' hw')).elim
      · rcases List.mem_cons.mp hc' with h' | h'
        · rw [h'] at hw'
          exact (hdisj ((mem_nzSlots _ _ _).mpr ⟨hi, hw'⟩) (hmem c h hw)).elim
        · exact ih hrest c h c' h' hw hw'

lemma setRank_at (r : Nat → Nat → Option Nat) (a b m t i : Nat)
    (h : a = t ∧ b = i) : setRank r a b m t i = some m := by
  unfold setRank
  rw [if_pos ⟨h.1.symm, h.2.symm⟩]

lemma setRank_notat (r : Nat → Nat → Option Nat) (a b m t i : Nat)
    (h : ¬ (a = t ∧ b = i)) : setRank r a b m t i = r t i := by
  unfold setRank
  rw [if_neg (fun hc => h ⟨hc.1.symm, hc.2.symm⟩)]

/-- A first-pass step leaves untouched any ranking slot the constraint does
not write. -/
lemma pass1Step_ranking_skip (env : MustEpochEnv) (s : MustEpochState)
    (c : MappingConstraint) (t i : Nat) (h : ¬ writesSlot c t i) :
    (pass1Step env s c).ranking t i = s.ranking t i := by
  obtain ⟨hA, hB⟩ := not_or.mp h
  unfold pass1Step
  split_ifs with h1 h2
  · dsimp only
    rw [setRank_notat _ _ _ _ _ _ hB, setRank_notat _ _ _ _ _ _ hA]
  · dsimp only
    rw [setRank_notat _ _ _ _ _ _ hB, setRank_notat _ _ _ _ _ _ hA]
  · rfl

/-- A first-pass step writes both its slots with `primaryVal` whenever it
has a side at slot 0. -/
lemma pass1Step_ranking_write (env : MustEpochEnv) (s : MustEpochState)
    (c : MappingConstraint) (t i : Nat) (hw : writesSlot c t i)
    (hnd : ¬ mustEpochDeferred c) :
    (pass1Step env s c).ranking t i = some (primaryVal env c) := by
  unfold pass1Step primaryVal
  split_ifs with h1 h2
  · dsimp only
    by_cases hc2 : c.t2 = t ∧ c.idx2 = i
    · rw [setRank_at _ _ _ _ _ _ hc2]
    · rw [setRank_notat _ _ _ _ _ _ hc2]
      rcases hw with h | h
      · rw [setRank_at _ _ _ _ _ _ h]
      · exact absurd h hc2
  · dsimp only
    by_cases hc2 : c.t2 = t ∧ c.idx2 = i
    · rw [setRank_at _ _ _ _ _ _ hc2]
    · rw [setRank_notat _ _ _ _ _ _ hc2]
      rcases hw with h | h
      · rw [setRank_at _ _ _ _ _ _ h]
      · exact absurd h hc2
  · exact absurd ⟨h1, h2⟩ hnd

lemma pass1_fold_skip (env : MustEpochEnv) (l : List MappingConstraint) :
    ∀ (s : MustEpochState) (t i : Nat), (∀ c ∈ l, ¬ writesSlot c t i) →
      (l.foldl (pass1Step env) s).ranking t i = s.ranking t i := by
  induction l with
  | nil => intro s t i h; rfl
  | cons c0 rest ih =>
      intro s t i h
      rw [List.foldl_cons,
        ih _ t i (fun c hc => h c (List.mem_cons_of_mem c0 hc)),
        pass1Step_ranking_skip env s c0 t i (h c0 (List.mem_cons_self c0 rest))]

/-- After the first pass, a slot written by some primary-slot constraint
holds the (unique, by hypothesis) value those writers push. -/
lemma pass1_fold_write (env : MustEpochEnv) (l : List MappingConstraint) :
    ∀ (s : MustEpochState) (t i : Nat) (v : Nat),
      (∀ c ∈ l, writesSlot c t i →
        ¬ mustEpochDeferred c ∧ primaryVal env c = v) →
      (∃ c ∈ l, writesSlot c t i) →
      (l.foldl (pass1Step env) s).ranking t i = some v := by
  induction l with
  | nil =>
      rintro s t i v h ⟨c, hc, -⟩
      exact absurd hc (List.not_mem_nil c)
  | cons c0 rest ih =>
      rintro s t i v h ⟨c, hc, hw⟩
      rw [List.foldl_cons]
      by_cases hrest : ∃ c' ∈ rest, writesSlot c' t i
      · exact ih _ t i v
          (fun c' hc' hw' => h c' (List.mem_cons_of_mem c0 hc') hw') hrest
      · have hc0 : writesSlot c0 t i := by
          rcases List.mem_cons.mp hc with h' | h'
          · rw [← h']; exact hw
          · exact absurd ⟨c, h', hw⟩ hrest
        have hprops := h c0 (List.mem_cons_self c0 rest) hc0
        rw [pass1_fold_skip env rest _ t i
          (fun c' hc' hw' => hrest ⟨c', hc', hw'⟩),
          pass1Step_ranking_write env s c0 t i hc0 hprops.1, hprops.2]

/-- `mappings` lookup after the first pass: empty iff no constraint records
the region and it was empty initially. -/
lemma pass1Step_mappings_none (env : MustEpochEnv) (s : MustEpochState)
    (c : MappingConstraint) (r : Nat) :
    ((pass1Step env s c).mappings r = none) ↔
      (¬ recordsRegion env c r ∧ s.mappings r = none) := by
  unfold pass1Step recordsRegion
  split_ifs with h1 h2
  · dsimp only
    rw [h1]
    by_cases hr : r = env.reg c.t1 0
    · rw [if_pos hr]
      simp [h1, hr]
    · rw [if_neg hr]
      simp only [h1]
      constructor
      · intro hs
        exact ⟨fun hrec => by
          rcases hrec with ⟨-, hR⟩ | ⟨hne, -, -⟩
          · exact hr hR.symm
          · exact hne rfl, hs⟩
      · exact fun hp => hp.2
  · dsimp only
    rw [h2]
    by_cases hr : r = env.reg c.t2 0
    · rw [if_pos hr]
      simp [h1, h2, hr]
    · rw [if_neg hr]
      constructor
      · intro hs
        exact ⟨fun hrec => by
          rcases hrec with ⟨hz, -⟩ | ⟨-, -, hR⟩
          · exact h1 hz
          · exact hr hR.symm, hs⟩
      · exact fun hp => hp.2
  · constructor
    · intro hs
      exact ⟨fun hrec => by
        rcases hrec with ⟨hz, -⟩ | ⟨-, hz, -⟩
        · exact h1 hz
        · exact h2 hz, hs⟩
    · exact fun hp => hp.2

lemma pass1_fold_mappings_none (env : MustEpochEnv)
    (l : List MappingConstraint) :
    ∀ (s : MustEpochState) (r : Nat),
      ((l.foldl (pass1Step env) s).mappings r = none) ↔
        ((¬ ∃ c ∈ l, recordsRegion env c r) ∧ s.mappings r = none) := by
  induction l with
  | nil => intro s r; simp
  | cons c0 rest ih =>
      intro s r
      rw [List.foldl_cons, ih, pass1Step_mappings_none]
      constructor
      · rintro ⟨hr, hc0, hs⟩
        refine ⟨?_, hs⟩
        rintro ⟨c, hc, hrec⟩
        rcases List.mem_cons.mp hc with h | h
        · exact hc0 (h ▸ hrec)
        · exact hr ⟨c, h, hrec⟩
      · rintro ⟨hall, hs⟩
        exact ⟨fun ⟨c, hc, hrec⟩ =>
            hall ⟨c, List.mem_cons_of_mem c0 hc, hrec⟩,
          fun hrec => hall ⟨c0, List.mem_cons_self c0 rest, hrec⟩, hs⟩

/-- A second-pass step never changes `mappings`. -/
lemma pass2Step_mappings (env : MustEpochEnv) (s : MustEpochState)
    (c : MappingConstraint) :
    ∀ s', pass2Step env s c = some s' → s'.mappings = s.mappings := by
  intro s' h
  unfold pass2Step at h
  split_ifs at h with h1
  · rcases Option.map_eq_some'.mp h with ⟨m, hm, rfl⟩
    rfl
  · cases h
    rfl

lemma pass2_fold_mappings (env : MustEpochEnv) (l : List MappingConstraint) :
    ∀ (s s' : MustEpochState),
      List.foldlM (pass2Step env) s l = some s' → s'.mappings = s.mappings := by
  induction l with
  | nil =>
      intro s s' h
      cases h
      rfl
  | cons c0 rest ih =>
      intro s s' h
      rw [List.foldlM_cons] at h
      rcases Option.bind_eq_some.mp h with ⟨s₁, h₁, h₂⟩
      rw [ih s₁ s' h₂, pass2Step_mappings env s c0 s₁ h₁]

/-- The second pass fails exactly when some deferred constraint's region has
no recorded memory. -/
lemma pass2_fold_none_iff (env : MustEpochEnv) (l : List MappingConstraint) :
    ∀ s : MustEpochState,
      (List.foldlM (pass2Step env) s l = none) ↔
        ∃ c ∈ l, mustEpochDeferred c ∧
          s.mappings (env.reg c.t1 c.idx1) = none := by
  induction l with
  | nil => intro s; simp
  | cons c0 rest ih =>
      intro s
      rw [List.foldlM_cons]
      constructor
      · intro h
        cases hstep : pass2Step env s c0 with
        | none =>
            refine ⟨c0, List.mem_cons_self c0 rest, ?_⟩
            unfold pass2Step at hstep
            split_ifs at hstep with h1
            exact ⟨h1, Option.map_eq_none'.mp hstep⟩
        | some s₁ =>
            rw [hstep] at h
            replace h : List.foldlM (pass2Step env) s₁ rest = none := h
            obtain ⟨c, hc, hd, hm⟩ := (ih s₁).mp h
            rw [pass2Step_mappings env s c0 s₁ hstep] at hm
            exact ⟨c, List.mem_cons_of_mem c0 hc, hd, hm⟩
      · rintro ⟨c, hc, hd, hm⟩
        rcases List.mem_cons.mp hc with h' | h'
        · have hstep : pass2Step env s c0 = none := by
            unfold pass2Step
            rw [if_pos ⟨(h' ▸ hd : mustEpochDeferred c0).1,
              (h' ▸ hd : mustEpochDeferred c0).2⟩]
            exact Option.map_eq_none'.mpr (h' ▸ hm)
          rw [hstep]
          rfl
        · cases hstep : pass2Step env s c0 with
          | none => rfl
          | some s₁ =>
              show List.foldlM (pass2Step env) s₁ rest = none
              refine (ih s₁).mpr ⟨c, h', hd, ?_⟩
              rw [pass2Step_mappings env s c0 s₁ hstep]
              exact hm

/-- A second-pass step leaves untouched any slot its constraint does not
write. -/
lemma pass2Step_ranking_skip (env : MustEpochEnv) (s : MustEpochState)
    (c : MappingConstraint) (t i : Nat)
    (h : mustEpochDeferred c → ¬ writesSlot c t i) :
    ∀ s', pass2Step env s c = some s' → s'.ranking t i = s.ranking t i := by
  intro s' hstep
  unfold pass2Step at hstep
  split_ifs at hstep with h1
  · rcases Option.map_eq_some'.mp hstep with ⟨m, hm, rfl⟩
    dsimp only
    obtain ⟨hA, hB⟩ := not_or.mp (h h1)
    rw [setRank_notat _ _ _ _ _ _ hB, setRank_notat _ _ _ _ _ _ hA]
  · cases hstep
    rfl

lemma pass2_fold_ranking_skip (env : MustEpochEnv)
    (l : List MappingConstraint) :
    ∀ (s s' : MustEpochState) (t i : Nat),
      (∀ c ∈ l, mustEpochDeferred c → ¬ writesSlot c t i) →
      List.foldlM (pass2Step env) s l = some s' →
      s'.ranking t i = s.ranking t i := by
  induction l with
  | nil =>
      intro s s' t i h hfold
      cases hfold
      rfl
  | cons c0 rest ih =>
      intro s s' t i h hfold
      rw [List.foldlM_cons] at hfold
      rcases Option.bind_eq_some.mp hfold with ⟨s₁, h₁, h₂⟩
      rw [ih s₁ s' t i (fun c hc => h c (List.mem_cons_of_mem c0 hc)) h₂,
        pass2Step_ranking_skip env s c0 t i
          (h c0 (List.mem_cons_self c0 rest)) s₁ h₁]

/-- After a successful second pass, the slots of a deferred constraint that
is the unique deferred writer of that slot hold exactly the memory recorded
for its `t1`-side region. -/
lemma pass2_fold_ranking_value (env : MustEpochEnv)
    (l : List MappingConstraint) :
    ∀ (s s' : MustEpochState) (t i : Nat) (c : MappingConstraint),
      List.foldlM (pass2Step env) s l = some s' →
      c ∈ l → mustEpochDeferred c → writesSlot c t i →
      (∀ c' ∈ l, mustEpochDeferred c' → writesSlot c' t i → c' = c) →
      s'.ranking t i = s.mappings (env.reg c.t1 c.idx1) := by
  induction l with
  | nil =>
      intro s s' t i c hfold hc
      exact absurd hc (List.not_mem_nil c)
  | cons c0 rest ih =>
      intro s s' t i c hfold hc hd hw huniq
      rw [List.foldlM_cons] at hfold
      rcases Option.bind_eq_some.mp hfold with ⟨s₁, h₁, h₂⟩
      have hmap₁ : s₁.mappings = s.mappings := pass2Step_mappings env s c0 s₁ h₁
      rcases List.mem_cons.mp hc with hceq | hcrest
      · subst hceq
        by_cases hwrest : ∃ c' ∈ rest, mustEpochDeferred c' ∧ writesSlot c' t i
        · obtain ⟨c', hc', hd', hw'⟩ := hwrest
          have heq : c' = c :=
            huniq c' (List.mem_cons_of_mem c hc') hd' hw'
          subst heq
          rw [ih s₁ s' t i c' h₂ hc' hd hw
            (fun c'' hc'' hd'' hw'' =>
              huniq c'' (List.mem_cons_of_mem c' hc'') hd'' hw''), hmap₁]
        · rw [pass2_fold_ranking_skip env rest s₁ s' t i
            (fun c'' hc'' hd'' hw'' => hwrest ⟨c'', hc'', hd'', hw''⟩) h₂]
          unfold pass2Step at h₁
          rw [if_pos ⟨hd.1, hd.2⟩] at h₁
          rcases Option.map_eq_some'.mp h₁ with ⟨m, hm, rfl⟩
          dsimp only
          rw [hm]
          rcases hw with hA | hB
          · by_cases hc2 : c.t2 = t ∧ c.idx2 = i
            · rw [setRank_at _ _ _ _ _ _ hc2]
            · rw [setRank_notat _ _ _ _ _ _ hc2, setRank_at _ _ _ _ _ _ hA]
          · rw [setRank_at _ _ _ _ _ _ hB]
      · rw [ih s₁ s' t i c h₂ hcrest hd hw
          (fun c'' hc'' hd'' hw'' =>
            huniq c'' (List.mem_cons_of_mem c0 hc'') hd'' hw''), hmap₁]

/-- Final value of a primary (index-0) ranking slot after both passes:
the node-local system memory of the slot's own task. -/
lemma final_zero_slot (env : MustEpochEnv) (cs : List MappingConstraint)
    (H1 : ∀ c ∈ cs, ¬ (c.idx1 = 0 ∧ c.idx2 = 0)) (st : MustEpochState)
    (hst : mapMustEpoch env cs = some st) (t : Nat)
    (hw : ∃ c ∈ cs, writesSlot c t 0) :
    st.ranking t 0 = some (env.sysmem (env.proc t)) := by
  unfold mapMustEpoch at hst
  have hσ : (cs.foldl (pass1Step env) initMustEpochState).ranking t 0 =
      some (env.sysmem (env.proc t)) := by
    refine pass1_fold_write env cs _ t 0 _ ?_ hw
    intro c' hc' hw'
    rcases hw' with ⟨ht, hz⟩ | ⟨ht, hz⟩
    · refine ⟨fun hd => hd.1 hz, ?_⟩
      unfold primaryVal
      rw [if_pos hz, ht]
    · have hne : c'.idx1 ≠ 0 := fun h => H1 c' hc' ⟨h, hz⟩
      refine ⟨fun hd => hd.2 hz, ?_⟩
      unfold primaryVal
      rw [if_neg hne, ht]
  rw [pass2_fold_ranking_skip env cs _ st t 0 ?_ hst, hσ]
  intro c'' hc'' hd'' hw''
  rcases hw'' with ⟨-, hz⟩ | ⟨-, hz⟩
  · exact hd''.1 hz
  · exact hd''.2 hz

/-- Final value of a non-primary ranking slot whose unique writer is a
primary-slot constraint: that constraint's `primaryVal`. -/
lemma final_unique_nonzero_slot (env : MustEpochEnv)
    (cs : List MappingConstraint) (H2 : (cs.flatMap nzSlots).Nodup)
    (st : MustEpochState) (hst : mapMustEpoch env cs = some st)
    (c : MappingConstraint) (hc : c ∈ cs) (hnd : ¬ mustEpochDeferred c)
    (t i : Nat) (hi : i ≠ 0) (hw : writesSlot c t i) :
    st.ranking t i = some (primaryVal env c) := by
  have huniq := writer_unique cs H2 t i hi
  unfold mapMustEpoch at hst
  have hσ : (cs.foldl (pass1Step env) initMustEpochState).ranking t i =
      some (primaryVal env c) := by
    refine pass1_fold_write env cs _ t i _ ?_ ⟨c, hc, hw⟩
    intro c' hc' hw'
    have heq : c' = c := huniq c' hc' c hc hw' hw
    rw [heq]
    exact ⟨hnd, rfl⟩
  rw [pass2_fold_ranking_skip env cs _ st t i ?_ hst, hσ]
  intro c'' hc'' hd'' hw''
  have heq : c'' = c := huniq c'' hc'' c hc hw'' hw
  rw [heq] at hd''
  exact absurd hd'' hnd

/-- The property C8 claims of the constraint processing of
`map_must_epoch`: every constraint with a side at the primary slot 0 has
both sides' rankings set to exactly the node-local system memory of the
primary side's assigned processor; constraints with neither side at slot 0
are processed afterwards and copy the memory already recorded for their
region by some primary-slot constraint; and the processing hits the fatal
assertion (result `none`) exactly when some deferred constraint's region
was never recorded. -/
def mustEpochSpec (env : MustEpochEnv) (cs : List MappingConstraint) :
    Prop :=
  (mapMustEpoch env cs = none ↔
    ∃ c ∈ cs, mustEpochDeferred c ∧
      ¬ ∃ c' ∈ cs, recordsRegion env c' (env.reg c.t1 c.idx1)) ∧
  (∀ st, mapMustEpoch env cs = some st → ∀ c ∈ cs,
    (c.idx1 = 0 →
      st.ranking c.t1 c.idx1 = some (env.sysmem (env.proc c.t1)) ∧
      st.ranking c.t2 c.idx2 = some (env.sysmem (env.proc c.t1))) ∧
    (c.idx1 ≠ 0 → c.idx2 = 0 →
      st.ranking c.t1 c.idx1 = some (env.sysmem (env.proc c.t2)) ∧
      st.ranking c.t2 c.idx2 = some (env.sysmem (env.proc c.t2))) ∧
    (mustEpochDeferred c →
      st.ranking c.t1 c.idx1 = st.mappings (env.reg c.t1 c.idx1) ∧
      st.ranking c.t2 c.idx2 = st.mappings (env.reg c.t1 c.idx1) ∧
      ∃ c' ∈ cs, recordsRegion env c' (env.reg c.t1 c.idx1)))

/-- C8: co-scheduled memory agreement, under the two structural hypotheses
that hold for the must-epoch launch of this program: no constraint has both
sides at slot 0, and no non-primary (task, index) slot is shared by two
constraints. -/
theorem must_epoch_agreement (env : MustEpochEnv)
    (cs : List MappingConstraint)
    (H1 : ∀ c ∈ cs, ¬ (c.idx1 = 0 ∧ c.idx2 = 0))
    (H2 : (cs.flatMap nzSlots).Nodup) :
    mustEpochSpec env cs := by
  have hfail : mapMustEpoch env cs = none ↔
      ∃ c ∈ cs, mustEpochDeferred c ∧
        ¬ ∃ c' ∈ cs, recordsRegion env c' (env.reg c.t1 c.idx1) := by
    unfold mapMustEpoch
    rw [pass2_fold_none_iff]
    refine exists_congr (fun c => and_congr_right (fun hc =>
      and_congr_right (fun hd => ?_)))
    rw [pass1_fold_mappings_none env cs initMustEpochState
      (env.reg c.t1 c.idx1)]
    simp [initMustEpochState]
  refine ⟨hfail, ?_⟩
  intro st hst c hc
  refine ⟨?_, ?_, ?_⟩
  · intro h0
    have hidx2 : c.idx2 ≠ 0 := fun h => H1 c hc ⟨h0, h⟩
    constructor
    · rw [h0]
      exact final_zero_slot env cs H1 st hst c.t1
        ⟨c, hc, Or.inl ⟨rfl, h0⟩⟩
    · have := final_unique_nonzero_slot env cs H2 st hst c hc
        (fun hd => hd.1 h0) c.t2 c.idx2 hidx2 (Or.inr ⟨rfl, rfl⟩)
      rw [this]
      unfold primaryVal
      rw [if_pos h0]
  · intro h1 h2
    constructor
    · have := final_unique_nonzero_slot env cs H2 st hst c hc
        (fun hd => hd.2 h2) c.t1 c.idx1 h1 (Or.inl ⟨rfl, rfl⟩)
      rw [this]
      unfold primaryVal
      rw [if_neg h1]
    · rw [h2]
      exact final_zero_slot env cs H1 st hst c.t2
        ⟨c, hc, Or.inr ⟨rfl, h2⟩⟩
  · intro hd
    have hmapfix : st.mappings =
        (cs.foldl (pass1Step env) initMustEpochState).mappings :=
      pass2_fold_mappings env cs _ st hst
    have hval : ∀ t i, writesSlot c t i →
        st.ranking t i = st.mappings (env.reg c.t1 c.idx1) := by
      intro t i hw
      have hi : i ≠ 0 := by
        rcases hw with ⟨-, h⟩ | ⟨-, h⟩
        · rw [← h]; exact hd.1
        · rw [← h]; exact hd.2
      rw [hmapfix]
      exact pass2_fold_ranking_value env cs _ st t i c hst hc hd hw
        (fun c' hc' hd' hw' =>
          writer_unique cs H2 t i hi c' hc' c hc hw' hw)
    refine ⟨hval c.t1 c.idx1 (Or.inl ⟨rfl, rfl⟩),
      hval c.t2 c.idx2 (Or.inr ⟨rfl, rfl⟩), ?_⟩
    by_contra hno
    have : mapMustEpoch env cs = none := hfail.mpr ⟨c, hc, hd, hno⟩
    rw [hst] at this
    exact Option.noConfusion this

/-- Witness for C8: a two-constraint instance (one primary-slot constraint
linking task 0 slot 0 with task 1 slot 2, and one deferred constraint over
the same region linking task 1 slot 3 with task 2 slot 1). -/
theorem must_epoch_agreement_witness :
    ((∀ c ∈ [MappingConstraint.mk 0 0 1 2, MappingConstraint.mk 1 3 2 1],
        ¬ (c.idx1 = 0 ∧ c.idx2 = 0)) ∧
      (([MappingConstraint.mk 0 0 1 2,
          MappingConstraint.mk 1 3 2 1].flatMap nzSlots).Nodup)) ∧
    mustEpochSpec ⟨fun t => t, fun p => p + 100, fun _ _ => 7⟩
      [MappingConstraint.mk 0 0 1 2, MappingConstraint.mk 1 3 2 1] :=
  ⟨⟨by decide, by decide⟩,
    must_epoch_agreement ⟨fun t => t, fun p => p + 100, fun _ _ => 7⟩
      [MappingConstraint.mk 0 0 1 2, MappingConstraint.mk 1 3 2 1]
      (by decide) (by decide)⟩

end Stencil
